import Mathlib

/-!
Shallow embedding of `upload-secrets.py`, a one-shot CLI tool that reads
key/value pairs from a `.env` file and uploads them as named secrets to an
Azure Key Vault, driven by an `app-configs.json` configuration.

The pure logic of the script is embedded directly:
* `load_env_file` — the filter applied to the parsed `.env` entries
  (`{k: v for k, v in env_vars.items() if v and not k.startswith("#")}`);
* `create_secret_mapping` — validation of app/environment followed by the
  descriptor loop building the Python dict `secret_mapping` and the list
  `missing_vars`; Python dict insertion (overwrite in place, append fresh
  keys) is modelled by `dictInsert` on association lists;
* `upload_secrets` — modelled as a trace of externally visible events
  (`connect`, `attemptSet`, `printMasked`) together with the exit code and
  the `uploaded_count` / `failed_count` counters; the outcomes of the
  Azure calls are oracles (`connectOk`, `setSecretOk`);
* `main_run` — the tail of `main()` after the configuration and the `.env`
  file have been read successfully.

`sys.exit(1)` is modelled by an exit code of `some 1`.
-/

namespace UploadSecretsModel

/-- One element of an application's `secrets` list in `app-configs.json`:
`{"env_var": ..., "vault_key": ...}`. -/
structure SecretConfig where
  env_var : String
  vault_key : String
  deriving DecidableEq, Repr

/-- One application descriptor in `app-configs.json`:
`{"environments": [...], "secrets": [...]}`. -/
structure AppConfig where
  environments : List String
  secrets : List SecretConfig
  deriving DecidableEq, Repr

/-- The parsed `app-configs.json` document: `vault_name` plus the
`applications` JSON object, modelled as an association list with distinct
keys. -/
structure Config where
  vault_name : String
  applications : List (String × AppConfig)
  deriving DecidableEq, Repr

/-- The pure part of `load_env_file`: `dotenv_values` has already parsed the
file into `parsed`; the function keeps the comprehension filter
`if v and not k.startswith("#")` (a Python string is truthy iff non-empty). -/
def load_env_file (parsed : List (String × String)) : List (String × String) :=
  parsed.filter (fun p => p.2 != "" && !p.1.startsWith "#")

/-- The f-string `f"{app_name}-{environment}-{vault_key}"` of
`create_secret_mapping`. -/
def secretName (app_name environment vault_key : String) : String :=
  app_name ++ "-" ++ environment ++ "-" ++ vault_key

/-- Python dict assignment `m[k] = v` on an association list: if the key is
already present its value is overwritten in place, otherwise the pair is
appended at the end (insertion order). -/
def dictInsert (m : List (String × String)) (k v : String) :
    List (String × String) :=
  if m.any (fun p => p.1 == k) then
    m.map (fun p => if p.1 == k then (k, v) else p)
  else
    m ++ [(k, v)]

/-- The `for secret_config in app_config["secrets"]` loop of
`create_secret_mapping`, threading the accumulators `secret_mapping` and
`missing_vars`. -/
def mapSecrets (app_name environment : String)
    (env_vars : List (String × String)) :
    List SecretConfig → List (String × String) → List String →
      List (String × String) × List String
  | [], secret_mapping, missing_vars => (secret_mapping, missing_vars)
  | sc :: rest, secret_mapping, missing_vars =>
    match env_vars.lookup sc.env_var with
    | some v =>
      mapSecrets app_name environment env_vars rest
        (dictInsert secret_mapping (secretName app_name environment sc.vault_key) v)
        missing_vars
    | none =>
      mapSecrets app_name environment env_vars rest
        secret_mapping (missing_vars ++ [sc.env_var])

/-- `create_secret_mapping`: validates that the application exists and that
the environment is supported (`sys.exit(1)` otherwise, modelled as
`.error 1`), then runs the descriptor loop starting from empty
accumulators. Returns the pair (secret mapping, missing variables). -/
def create_secret_mapping (config : Config) (app_name environment : String)
    (env_vars : List (String × String)) :
    Except Nat (List (String × String) × List String) :=
  match config.applications.lookup app_name with
  | none => .error 1
  | some app_config =>
    if environment ∈ app_config.environments then
      .ok (mapSecrets app_name environment env_vars app_config.secrets [] [])
    else
      .error 1

/-- Externally visible actions of `upload_secrets`: creating the
`SecretClient` (authentication), one `client.set_secret` call, and one
dry-run `print(f"{secret_name} = {masked_value}")` line. -/
inductive Event where
  | connect (vault_name : String)
  | attemptSet (name value : String)
  | printMasked (name masked : String)
  deriving DecidableEq, Repr

/-- The masking expression of the dry-run branch:
`secret_value[:4] + "*" * (len(secret_value) - 4) if len(secret_value) > 4
else "****"`. -/
def maskValue (secret_value : String) : String :=
  if secret_value.length > 4 then
    secret_value.take 4 ++ String.mk (List.replicate (secret_value.length - 4) '*')
  else
    "****"

/-- The live upload loop: one `set_secret` attempt per entry, incrementing
`uploaded_count` on success and `failed_count` on a caught exception
(success decided by the oracle `setSecretOk`). -/
def uploadLoop (setSecretOk : String → String → Bool) :
    List (String × String) → Nat → Nat → List Event × Nat × Nat
  | [], uploaded_count, failed_count => ([], uploaded_count, failed_count)
  | (n, v) :: rest, uploaded_count, failed_count =>
    if setSecretOk n v then
      let r := uploadLoop setSecretOk rest (uploaded_count + 1) failed_count
      (Event.attemptSet n v :: r.1, r.2)
    else
      let r := uploadLoop setSecretOk rest uploaded_count (failed_count + 1)
      (Event.attemptSet n v :: r.1, r.2)

/-- Result of one run of `upload_secrets` (or of `main_run`): the event
trace, the exit code (`some 1` for `sys.exit(1)`, `none` for a normal
return), and the two summary counters. -/
structure UploadOutcome where
  events : List Event
  exitCode : Option Nat
  uploaded : Nat
  failed : Nat
  deriving DecidableEq, Repr

/-- `upload_secrets`: in dry-run mode, prints one masked line per secret and
returns without touching the network; otherwise connects to the vault
(`sys.exit(1)` if the connection fails, before any upload) and runs the
upload loop. `connectOk` is the oracle for the `SecretClient` creation,
`setSecretOk` for the individual `set_secret` calls. -/
def upload_secrets (connectOk : Bool) (setSecretOk : String → String → Bool)
    (vault_name : String) (secret_mapping : List (String × String))
    (dry_run : Bool) : UploadOutcome :=
  if dry_run then
    { events := secret_mapping.map (fun p => Event.printMasked p.1 (maskValue p.2)),
      exitCode := none, uploaded := 0, failed := 0 }
  else if connectOk then
    let r := uploadLoop setSecretOk secret_mapping 0 0
    { events := Event.connect vault_name :: r.1,
      exitCode := none, uploaded := r.2.1, failed := r.2.2 }
  else
    { events := [Event.connect vault_name],
      exitCode := some 1, uploaded := 0, failed := 0 }

/-- The tail of `main()` once `app-configs.json` has been parsed into
`config` and the `.env` file into `parsed_env`: filter the environment
entries, build the secret mapping (its fatal exits propagate), return
early when the mapping is empty, otherwise call `upload_secrets`. -/
def main_run (config : Config) (parsed_env : List (String × String))
    (app_name environment : String) (dry_run : Bool)
    (connectOk : Bool) (setSecretOk : String → String → Bool) : UploadOutcome :=
  let env_vars := load_env_file parsed_env
  match create_secret_mapping config app_name environment env_vars with
  | .error c => { events := [], exitCode := some c, uploaded := 0, failed := 0 }
  | .ok (secret_mapping, _missing) =>
    if secret_mapping.isEmpty then
      { events := [], exitCode := none, uploaded := 0, failed := 0 }
    else
      upload_secrets connectOk setSecretOk config.vault_name secret_mapping dry_run

/-- Specification helper: the synthesized names of the descriptors whose
`env_var` is present in `env_vars`, in configuration order (with
multiplicity). -/
def presentNames (app_name environment : String)
    (env_vars : List (String × String)) (secrets : List SecretConfig) :
    List String :=
  secrets.filterMap (fun sc =>
    if (env_vars.lookup sc.env_var).isSome then
      some (secretName app_name environment sc.vault_key)
    else none)

/-- Specification helper: the values of the present descriptors whose
synthesized name is `k`, in configuration order. -/
def matchingValues (app_name environment k : String)
    (env_vars : List (String × String)) (secrets : List SecretConfig) :
    List String :=
  secrets.filterMap (fun sc =>
    match env_vars.lookup sc.env_var with
    | some v =>
      if secretName app_name environment sc.vault_key = k then some v else none
    | none => none)

/-- Specification helper: the `env_var`s of the descriptors absent from
`env_vars`, in configuration order. -/
def missingOf (env_vars : List (String × String))
    (secrets : List SecretConfig) : List String :=
  (secrets.filter (fun sc => (env_vars.lookup sc.env_var).isNone)).map
    (fun sc => sc.env_var)

/-- The keys of an association list, in order. -/
def keys (m : List (String × String)) : List String :=
  m.map Prod.fst

/-- A one-application configuration used to instantiate the general
theorems on concrete inputs. -/
def cfgOne : Config :=
  { vault_name := "vault",
    applications := [("a", { environments := ["dev"], secrets := [⟨"X", "k"⟩] })] }

/-- A configuration whose single application has two secret descriptors
with distinct vault keys. -/
def cfgTwo : Config :=
  { vault_name := "vault",
    applications :=
      [("a", { environments := ["dev"],
               secrets := [⟨"X", "k1"⟩, ⟨"Y", "k2"⟩] })] }

/-- An application descriptor whose two secret descriptors share the same
vault key, so both synthesize the same secret name. -/
def appDup : AppConfig :=
  { environments := ["dev"], secrets := [⟨"X", "k"⟩, ⟨"Y", "k"⟩] }

/-- A configuration containing `appDup` under the name `a`. -/
def cfgDup : Config :=
  { vault_name := "vault", applications := [("a", appDup)] }


theorem lookup_map_overwrite_ne (k k' v : String) (h : k' ≠ k)
    (m : List (String × String)) :
    (m.map (fun p => if p.1 == k then (k, v) else p)).lookup k' = m.lookup k' := by
  induction m with
  | nil => rfl
  | cons a m ih =>
    obtain ⟨a1, a2⟩ := a
    have hk : (k' == k) = false := beq_eq_false_iff_ne.mpr h
    by_cases ha : a1 = k
    · subst ha
      simp only [List.map_cons, beq_self_eq_true, if_true, List.lookup_cons, hk, ih]
    · have ha' : (a1 == k) = false := beq_eq_false_iff_ne.mpr ha
      simp only [List.map_cons, ha', Bool.false_eq_true, if_false, List.lookup_cons]
      cases hka : k' == a1 with
      | true => rfl
      | false => exact ih

theorem lookup_map_overwrite_eq (k v : String) (m : List (String × String))
    (hany : m.any (fun p => p.1 == k) = true) :
    (m.map (fun p => if p.1 == k then (k, v) else p)).lookup k = some v := by
  induction m with
  | nil => simp at hany
  | cons a m ih =>
    obtain ⟨a1, a2⟩ := a
    by_cases ha : a1 = k
    · subst ha
      simp only [List.map_cons, beq_self_eq_true, if_true, List.lookup_cons,
        beq_self_eq_true]
    · have ha' : (a1 == k) = false := beq_eq_false_iff_ne.mpr ha
      have hk : (k == a1) = false := beq_eq_false_iff_ne.mpr (Ne.symm ha)
      simp only [List.any_cons, ha', Bool.false_or] at hany
      simp only [List.map_cons, ha', Bool.false_eq_true, if_false, List.lookup_cons, hk]
      exact ih hany

theorem lookup_append_single (k k' v : String) (m : List (String × String))
    (hnone : m.any (fun p => p.1 == k) = false) :
    (m ++ [(k, v)]).lookup k' = if k' = k then some v else m.lookup k' := by
  induction m with
  | nil =>
    simp only [List.nil_append, List.lookup_cons, List.lookup_nil]
    by_cases h : k' = k
    · simp only [beq_iff_eq.mpr h, if_pos h]
    · simp only [beq_eq_false_iff_ne.mpr h, if_neg h]
  | cons a m ih =>
    obtain ⟨a1, a2⟩ := a
    simp only [List.any_cons, Bool.or_eq_false_iff] at hnone
    obtain ⟨ha1, hrest⟩ := hnone
    simp only [List.cons_append, List.lookup_cons]
    cases hka : k' == a1 with
    | true =>
      have hk' : k' = a1 := beq_iff_eq.mp hka
      have hne : k' ≠ k := by
        intro hkk
        exact beq_eq_false_iff_ne.mp ha1 (hk' ▸ hkk)
      simp only [if_neg hne, List.lookup_cons, hka]
    | false =>
      simp only [ih hrest, List.lookup_cons, hka]

theorem any_key_iff (m : List (String × String)) (k : String) :
    (m.any (fun p => p.1 == k)) = true ↔ k ∈ keys m := by
  simp [keys, List.any_eq_true, List.mem_map, beq_iff_eq]

theorem lookup_dictInsert (m : List (String × String)) (k v k' : String) :
    (dictInsert m k v).lookup k' = if k' = k then some v else m.lookup k' := by
  unfold dictInsert
  cases hany : m.any (fun p => p.1 == k) with
  | true =>
    simp only [if_true]
    by_cases h : k' = k
    · rw [if_pos h, h]
      exact lookup_map_overwrite_eq k v m hany
    · simp only [if_neg h, lookup_map_overwrite_ne k k' v h m]
  | false =>
    simp only [Bool.false_eq_true, if_false, lookup_append_single k k' v m hany]



theorem fst_overwrite (k v : String) (p : String × String) :
    (if p.1 == k then (k, v) else p).1 = p.1 := by
  by_cases h : p.1 = k
  · simp [h]
  · simp [beq_eq_false_iff_ne.mpr h]

theorem keys_map_overwrite (k v : String) (m : List (String × String)) :
    keys (m.map (fun p => if p.1 == k then (k, v) else p)) = keys m := by
  simp only [keys, List.map_map]
  have hfun : (Prod.fst ∘ fun p : String × String => if p.1 == k then (k, v) else p)
      = Prod.fst := funext fun p => fst_overwrite k v p
  rw [hfun]

theorem keys_dictInsert_of_mem (m : List (String × String)) (k v : String)
    (h : k ∈ keys m) :
    keys (dictInsert m k v) = keys m := by
  unfold dictInsert
  rw [if_pos ((any_key_iff m k).mpr h)]
  exact keys_map_overwrite k v m

theorem keys_dictInsert_of_not_mem (m : List (String × String)) (k v : String)
    (h : k ∉ keys m) :
    keys (dictInsert m k v) = keys m ++ [k] := by
  unfold dictInsert
  rw [if_neg (by rw [any_key_iff m k]; simpa using h)]
  simp [keys]

theorem length_keys (m : List (String × String)) : (keys m).length = m.length := by
  simp [keys]

theorem length_dictInsert_of_mem (m : List (String × String)) (k v : String)
    (h : k ∈ keys m) :
    (dictInsert m k v).length = m.length := by
  rw [← length_keys, ← length_keys m, keys_dictInsert_of_mem m k v h]

theorem length_dictInsert_of_not_mem (m : List (String × String)) (k v : String)
    (h : k ∉ keys m) :
    (dictInsert m k v).length = m.length + 1 := by
  rw [← length_keys, ← length_keys m, keys_dictInsert_of_not_mem m k v h]
  simp

theorem mem_keys_dictInsert (m : List (String × String)) (k v k' : String) :
    k' ∈ keys (dictInsert m k v) ↔ k' ∈ keys m ∨ k' = k := by
  by_cases h : k ∈ keys m
  · rw [keys_dictInsert_of_mem m k v h]
    constructor
    · exact Or.inl
    · rintro (hh | rfl)
      · exact hh
      · exact h
  · rw [keys_dictInsert_of_not_mem m k v h]
    simp



theorem mapSecrets_missing (app_name environment : String)
    (env_vars : List (String × String)) :
    ∀ (secrets : List SecretConfig) (acc : List (String × String))
      (ms : List String),
      (mapSecrets app_name environment env_vars secrets acc ms).2 =
        ms ++ missingOf env_vars secrets
  | [], acc, ms => by simp [mapSecrets, missingOf]
  | sc :: rest, acc, ms => by
    cases hl : env_vars.lookup sc.env_var with
    | some v =>
      simp only [mapSecrets, hl, mapSecrets_missing app_name environment env_vars rest,
        missingOf, List.filter_cons, hl, Option.isNone_some, Bool.false_eq_true,
        if_false]
    | none =>
      simp only [mapSecrets, hl, mapSecrets_missing app_name environment env_vars rest,
        missingOf, List.filter_cons, hl, Option.isNone_none, if_true, List.map_cons,
        List.append_assoc, List.cons_append, List.nil_append]

theorem mem_keys_mapSecrets (app_name environment : String)
    (env_vars : List (String × String)) (k : String) :
    ∀ (secrets : List SecretConfig) (acc : List (String × String))
      (ms : List String),
      k ∈ keys (mapSecrets app_name environment env_vars secrets acc ms).1 ↔
        k ∈ keys acc ∨ k ∈ presentNames app_name environment env_vars secrets
  | [], acc, ms => by simp [mapSecrets, presentNames]
  | sc :: rest, acc, ms => by
    cases hl : env_vars.lookup sc.env_var with
    | some v =>
      rw [mapSecrets, hl]
      simp only []
      rw [mem_keys_mapSecrets app_name environment env_vars k rest]
      rw [mem_keys_dictInsert]
      simp only [presentNames, List.filterMap_cons, hl, Option.isSome_some, if_true,
        List.mem_cons]
      constructor
      · rintro ((h | h) | h)
        · exact Or.inl h
        · exact Or.inr (Or.inl h)
        · exact Or.inr (Or.inr h)
      · rintro (h | (h | h))
        · exact Or.inl (Or.inl h)
        · exact Or.inl (Or.inr h)
        · exact Or.inr h
    | none =>
      rw [mapSecrets, hl]
      rw [mem_keys_mapSecrets app_name environment env_vars k rest]
      simp only [presentNames, List.filterMap_cons, hl, Option.isSome_none,
        Bool.false_eq_true, if_false]



theorem mapSecrets_lookup (app_name environment : String)
    (env_vars : List (String × String)) (k : String) :
    ∀ (secrets : List SecretConfig) (acc : List (String × String))
      (ms : List String),
      (mapSecrets app_name environment env_vars secrets acc ms).1.lookup k =
        match (matchingValues app_name environment k env_vars secrets).getLast? with
        | some v => some v
        | none => acc.lookup k
  | [], acc, ms => by simp [mapSecrets, matchingValues]
  | sc :: rest, acc, ms => by
    cases hl : env_vars.lookup sc.env_var with
    | none =>
      rw [mapSecrets, hl]
      rw [mapSecrets_lookup app_name environment env_vars k rest]
      simp only [matchingValues, List.filterMap_cons, hl]
    | some v =>
      rw [mapSecrets, hl]
      rw [mapSecrets_lookup app_name environment env_vars k rest]
      by_cases hn : secretName app_name environment sc.vault_key = k
      · simp only [matchingValues, List.filterMap_cons, hl, if_pos hn]
        cases hml : (matchingValues app_name environment k env_vars rest) with
        | nil =>
          simp only [matchingValues] at hml
          rw [hml]
          simp only [List.getLast?_singleton, List.getLast?_nil]
          rw [lookup_dictInsert, if_pos hn.symm]
        | cons w l =>
          simp only [matchingValues] at hml
          rw [hml, List.getLast?_cons_cons]
          cases hgl : (w :: l).getLast? with
          | some u => rfl
          | none => simp at hgl
      · simp only [matchingValues, List.filterMap_cons, hl, if_neg hn]
        cases hml : (matchingValues app_name environment k env_vars rest).getLast? with
        | some w => simp only [matchingValues] at hml; rw [hml]
        | none =>
          simp only [matchingValues] at hml
          rw [hml]
          simp only []
          rw [lookup_dictInsert, if_neg (fun hh => hn hh.symm)]



theorem mapSecrets_count (app_name environment : String)
    (env_vars : List (String × String)) :
    ∀ (secrets : List SecretConfig) (acc : List (String × String))
      (ms : List String),
      ((mapSecrets app_name environment env_vars secrets acc ms).1.length +
          (mapSecrets app_name environment env_vars secrets acc ms).2.length ≤
          acc.length + ms.length + secrets.length)
      ∧ ((mapSecrets app_name environment env_vars secrets acc ms).1.length +
            (mapSecrets app_name environment env_vars secrets acc ms).2.length =
            acc.length + ms.length + secrets.length ↔
          (presentNames app_name environment env_vars secrets).Nodup ∧
            ∀ n ∈ presentNames app_name environment env_vars secrets, n ∉ keys acc)
  | [], acc, ms => by simp [mapSecrets, presentNames]
  | sc :: rest, acc, ms => by
    cases hl : env_vars.lookup sc.env_var with
    | none =>
      rw [mapSecrets, hl]
      dsimp only
      have hpn : presentNames app_name environment env_vars (sc :: rest) =
          presentNames app_name environment env_vars rest := by
        simp [presentNames, List.filterMap_cons, hl]
      rw [hpn]
      obtain ⟨ih1, ih2⟩ :=
        mapSecrets_count app_name environment env_vars rest acc (ms ++ [sc.env_var])
      have hB : acc.length + (ms ++ [sc.env_var]).length + rest.length =
          acc.length + ms.length + (sc :: rest).length := by
        simp only [List.length_append, List.length_cons, List.length_nil]
        omega
      rw [hB] at ih1 ih2
      exact ⟨ih1, ih2⟩
    | some v =>
      rw [mapSecrets, hl]
      dsimp only
      have hpn : presentNames app_name environment env_vars (sc :: rest) =
          secretName app_name environment sc.vault_key ::
            presentNames app_name environment env_vars rest := by
        simp [presentNames, List.filterMap_cons, hl]
      rw [hpn]
      by_cases hmem : secretName app_name environment sc.vault_key ∈ keys acc
      · obtain ⟨ih1, ih2⟩ := mapSecrets_count app_name environment env_vars rest
          (dictInsert acc (secretName app_name environment sc.vault_key) v) ms
        rw [length_dictInsert_of_mem acc _ v hmem] at ih1 ih2
        refine ⟨?_, ?_, ?_⟩
        · simp only [List.length_cons]
          omega
        · intro heq
          exfalso
          simp only [List.length_cons] at heq
          omega
        · rintro ⟨hnd, hall⟩
          exact absurd hmem
            (hall (secretName app_name environment sc.vault_key)
              (List.mem_cons_self _ _))
      · obtain ⟨ih1, ih2⟩ := mapSecrets_count app_name environment env_vars rest
          (dictInsert acc (secretName app_name environment sc.vault_key) v) ms
        rw [length_dictInsert_of_not_mem acc _ v hmem] at ih1 ih2
        rw [keys_dictInsert_of_not_mem acc _ v hmem] at ih2
        have hB : acc.length + 1 + ms.length + rest.length =
            acc.length + ms.length + (sc :: rest).length := by
          simp only [List.length_cons]
          omega
        rw [hB] at ih1 ih2
        refine ⟨ih1, ?_⟩
        rw [ih2]
        constructor
        · rintro ⟨hnd, hall⟩
          have hnin : secretName app_name environment sc.vault_key ∉
              presentNames app_name environment env_vars rest := by
            intro hmem'
            have h2 := hall _ hmem'
            exact h2 (List.mem_append_right _ (List.mem_singleton.mpr rfl))
          refine ⟨List.nodup_cons.mpr ⟨hnin, hnd⟩, ?_⟩
          intro n' hn'
          rcases List.mem_cons.mp hn' with rfl | hmem'
          · exact hmem
          · intro hc
            exact (hall n' hmem') (List.mem_append_left _ hc)
        · rintro ⟨hnd, hall⟩
          obtain ⟨hnin, hnd'⟩ := List.nodup_cons.mp hnd
          refine ⟨hnd', ?_⟩
          intro n' hn' hc
          rcases List.mem_append.mp hc with hc1 | hc2
          · exact hall n' (List.mem_cons_of_mem _ hn') hc1
          · rw [List.mem_singleton.mp hc2] at hn'
            exact hnin hn'



theorem create_ok_inv (config : Config) (app_name environment : String)
    (env_vars m : List (String × String)) (miss : List String)
    (h : create_secret_mapping config app_name environment env_vars =
      .ok (m, miss)) :
    ∃ app_config, config.applications.lookup app_name = some app_config ∧
      environment ∈ app_config.environments ∧
      (m, miss) =
        mapSecrets app_name environment env_vars app_config.secrets [] [] := by
  unfold create_secret_mapping at h
  cases hac : config.applications.lookup app_name with
  | none => rw [hac] at h; exact absurd h (by simp)
  | some ac =>
    rw [hac] at h
    dsimp only at h
    by_cases he : environment ∈ ac.environments
    · rw [if_pos he] at h
      exact ⟨ac, rfl, he, (Except.ok.inj h).symm⟩
    · rw [if_neg he] at h
      exact absurd h (by simp)

theorem matching_length_count (app_name environment : String)
    (env_vars : List (String × String)) (k : String) :
    ∀ secrets : List SecretConfig,
      (matchingValues app_name environment k env_vars secrets).length =
        (presentNames app_name environment env_vars secrets).count k
  | [] => by simp [matchingValues, presentNames]
  | sc :: rest => by
    cases hl : env_vars.lookup sc.env_var with
    | none =>
      simp only [matchingValues, presentNames, List.filterMap_cons, hl]
      exact matching_length_count app_name environment env_vars k rest
    | some v =>
      by_cases hn : secretName app_name environment sc.vault_key = k
      · simp only [matchingValues, presentNames, List.filterMap_cons, hl,
          Option.isSome_some, if_true, if_pos hn, List.length_cons,
          List.count_cons, beq_iff_eq.mpr hn, if_true]
        have ih := matching_length_count app_name environment env_vars k rest
        simp only [matchingValues, presentNames] at ih
        omega
      · simp only [matchingValues, presentNames, List.filterMap_cons, hl,
          Option.isSome_some, if_true, if_neg hn, List.count_cons,
          beq_eq_false_iff_ne.mpr hn, Bool.false_eq_true, if_false]
        have ih := matching_length_count app_name environment env_vars k rest
        simp only [matchingValues, presentNames] at ih
        omega

theorem mem_matchingValues {app_name environment k : String}
    {env_vars : List (String × String)} {secrets : List SecretConfig}
    {sc : SecretConfig} {v : String} (h : sc ∈ secrets)
    (hv : env_vars.lookup sc.env_var = some v)
    (hk : secretName app_name environment sc.vault_key = k) :
    v ∈ matchingValues app_name environment k env_vars secrets :=
  List.mem_filterMap.mpr ⟨sc, h, by simp [hv, hk]⟩

theorem mem_presentNames {app_name environment : String}
    {env_vars : List (String × String)} {secrets : List SecretConfig}
    {sc : SecretConfig} (h : sc ∈ secrets)
    (hv : (env_vars.lookup sc.env_var).isSome = true) :
    secretName app_name environment sc.vault_key ∈
      presentNames app_name environment env_vars secrets :=
  List.mem_filterMap.mpr ⟨sc, h, by simp [hv]⟩

theorem eq_singleton_of_length_one_of_mem {l : List String} {v : String}
    (h1 : l.length = 1) (h2 : v ∈ l) : l = [v] := by
  match l, h1 with
  | [x], _ =>
    rcases List.mem_singleton.mp h2 with rfl
    rfl



theorem uploadLoop_spec (setSecretOk : String → String → Bool) :
    ∀ (mapping : List (String × String)) (u f : Nat),
      (uploadLoop setSecretOk mapping u f).1 =
        mapping.map (fun p => Event.attemptSet p.1 p.2)
      ∧ (uploadLoop setSecretOk mapping u f).2.1 +
          (uploadLoop setSecretOk mapping u f).2.2 = u + f + mapping.length
  | [], u, f => by simp [uploadLoop]
  | (n, v) :: rest, u, f => by
    obtain ⟨h1, h2⟩ := uploadLoop_spec setSecretOk rest (u + 1) f
    obtain ⟨h1', h2'⟩ := uploadLoop_spec setSecretOk rest u (f + 1)
    by_cases hs : setSecretOk n v
    · simp only [uploadLoop, if_pos hs, List.map_cons, List.length_cons]
      exact ⟨by rw [h1], by omega⟩
    · simp only [uploadLoop, if_neg hs, List.map_cons, List.length_cons]
      exact ⟨by rw [h1'], by omega⟩

/-- Claim C2: with the dry-run flag set, `upload_secrets` performs no vault
authentication and no `set_secret` call for any vault name and any secret
mapping, and returns normally. -/
theorem dry_run_transmits_nothing (connectOk : Bool)
    (setSecretOk : String → String → Bool) (vault_name : String)
    (secret_mapping : List (String × String)) :
    (∀ vn, Event.connect vn ∉
        (upload_secrets connectOk setSecretOk vault_name secret_mapping true).events)
    ∧ (∀ n v, Event.attemptSet n v ∉
        (upload_secrets connectOk setSecretOk vault_name secret_mapping true).events)
    ∧ (upload_secrets connectOk setSecretOk vault_name secret_mapping true).exitCode
        = none := by
  refine ⟨?_, ?_, rfl⟩
  · intro vn h
    simp only [upload_secrets, if_true, List.mem_map] at h
    obtain ⟨p, _, hp⟩ := h
    exact Event.noConfusion hp
  · intro n v h
    simp only [upload_secrets, if_true, List.mem_map] at h
    obtain ⟨p, _, hp⟩ := h
    exact Event.noConfusion hp

/-- Claim C3: in dry-run mode the printed masked value of each secret is the
first 4 characters followed by one `*` per remaining character when the
value is longer than 4 characters, and exactly the 4-character string
`"****"` otherwise. -/
theorem dry_run_masked_values (connectOk : Bool)
    (setSecretOk : String → String → Bool) (vault_name : String)
    (secret_mapping : List (String × String)) :
    (upload_secrets connectOk setSecretOk vault_name secret_mapping true).events =
      secret_mapping.map (fun p => Event.printMasked p.1
        (if p.2.length > 4 then
          p.2.take 4 ++ String.mk (List.replicate (p.2.length - 4) '*')
        else "****"))
    ∧ ("****" : String).length = 4 :=
  ⟨rfl, rfl⟩

/-- Claim C5: the environment-file loader keeps exactly the parsed entries whose
value is non-empty and whose key does not begin with `#`, with values
unchanged. -/
theorem load_env_file_filter (parsed : List (String × String)) (k v : String) :
    (k, v) ∈ load_env_file parsed ↔
      (k, v) ∈ parsed ∧ v ≠ "" ∧ k.startsWith "#" = false := by
  simp only [load_env_file, List.mem_filter, Bool.and_eq_true, bne_iff_ne,
    Bool.not_eq_true', and_assoc]

/-- Claim C7: in live mode a vault connection failure exits with status 1 before
any individual secret upload is attempted. -/
theorem connect_failure_aborts_before_upload
    (setSecretOk : String → String → Bool) (vault_name : String)
    (secret_mapping : List (String × String)) :
    (upload_secrets false setSecretOk vault_name secret_mapping false).exitCode
      = some 1
    ∧ ∀ n v, Event.attemptSet n v ∉
        (upload_secrets false setSecretOk vault_name secret_mapping false).events := by
  refine ⟨rfl, ?_⟩
  intro n v h
  simp only [upload_secrets, Bool.false_eq_true, if_false, List.mem_singleton] at h
  exact Event.noConfusion h

/-- Claim C8: in live mode with a successful connection, every secret in the
mapping is attempted exactly once regardless of individual failures, and
the succeeded count plus the failed count equals the size of the mapping. -/
theorem live_mode_attempts_every_secret (setSecretOk : String → String → Bool)
    (vault_name : String) (secret_mapping : List (String × String)) :
    (upload_secrets true setSecretOk vault_name secret_mapping false).events =
      Event.connect vault_name ::
        secret_mapping.map (fun p => Event.attemptSet p.1 p.2)
    ∧ (upload_secrets true setSecretOk vault_name secret_mapping false).uploaded +
        (upload_secrets true setSecretOk vault_name secret_mapping false).failed =
        secret_mapping.length
    ∧ (upload_secrets true setSecretOk vault_name secret_mapping false).exitCode
        = none := by
  obtain ⟨h1, h2⟩ := uploadLoop_spec setSecretOk secret_mapping 0 0
  simp only [upload_secrets, Bool.false_eq_true, if_false, if_true]
  exact ⟨by rw [h1], by simpa using h2, trivial⟩



/-- Claim C1: every key of the synthesized secret mapping is exactly
`app_name ++ "-" ++ environment ++ "-" ++ vault_key` for one of the
application's secret descriptors. -/
theorem secret_names_follow_convention (config : Config)
    (app_name environment : String) (env_vars m : List (String × String))
    (miss : List String)
    (h : create_secret_mapping config app_name environment env_vars =
      .ok (m, miss))
    (k v : String) (hk : (k, v) ∈ m) :
    ∃ app_config, config.applications.lookup app_name = some app_config ∧
      ∃ sc ∈ app_config.secrets,
        k = app_name ++ "-" ++ environment ++ "-" ++ sc.vault_key := by
  obtain ⟨ac, hac, he, heq⟩ :=
    create_ok_inv config app_name environment env_vars m miss h
  refine ⟨ac, hac, ?_⟩
  have hm : m = (mapSecrets app_name environment env_vars ac.secrets [] []).1 :=
    congrArg Prod.fst heq
  have hkeys : k ∈ keys m := List.mem_map_of_mem Prod.fst hk
  rw [hm] at hkeys
  rcases (mem_keys_mapSecrets app_name environment env_vars k ac.secrets [] []).mp
      hkeys with h0 | hp
  · simp [keys] at h0
  · rw [presentNames] at hp
    obtain ⟨sc, hsc, hf⟩ := List.mem_filterMap.mp hp
    by_cases hv : (env_vars.lookup sc.env_var).isSome
    · rw [if_pos hv] at hf
      exact ⟨sc, hsc, (Option.some.inj hf).symm⟩
    · rw [if_neg hv] at hf
      exact absurd hf (by simp)

theorem secret_names_follow_convention_witness :
    ∃ app_config, cfgOne.applications.lookup "a" = some app_config ∧
      ∃ sc ∈ app_config.secrets,
        "a-dev-k" = "a" ++ "-" ++ "dev" ++ "-" ++ sc.vault_key :=
  secret_names_follow_convention cfgOne "a" "dev" [("X", "1")]
    [("a-dev-k", "1")] [] rfl "a-dev-k" "1" (by decide)

/-- Claim C6: when the application is unknown to the configuration, or the
environment is not supported for it, the run exits with status 1 having
performed no vault work at all. -/
theorem invalid_app_or_env_exits (config : Config)
    (parsed_env : List (String × String)) (app_name environment : String)
    (dry_run connectOk : Bool) (setSecretOk : String → String → Bool)
    (h : config.applications.lookup app_name = none
      ∨ ∃ app_config, config.applications.lookup app_name = some app_config ∧
          environment ∉ app_config.environments) :
    main_run config parsed_env app_name environment dry_run connectOk setSecretOk =
      { events := [], exitCode := some 1, uploaded := 0, failed := 0 } := by
  unfold main_run create_secret_mapping
  rcases h with h | ⟨ac, hac, he⟩
  · rw [h]
  · rw [hac]
    dsimp only
    rw [if_neg he]

theorem invalid_app_or_env_exits_witness :
    main_run cfgOne [] "my-web-app" "dev" false true (fun _ _ => true) =
      { events := [], exitCode := some 1, uploaded := 0, failed := 0 } :=
  invalid_app_or_env_exits cfgOne [] "my-web-app" "dev" false true
    (fun _ _ => true) (Or.inl rfl)



/-- Claim C9: for an application with exactly two secret descriptors and a
supported environment, when exactly one of the two `env_var`s is present in
the loaded environment mapping the resulting secret mapping has exactly one
entry and the missing-variables warning list has exactly one element. -/
theorem one_present_one_missing (config : Config)
    (app_name environment : String) (env_vars m : List (String × String))
    (miss : List String) (app_config : AppConfig) (s1 s2 : SecretConfig)
    (hok : create_secret_mapping config app_name environment env_vars =
      .ok (m, miss))
    (hac : config.applications.lookup app_name = some app_config)
    (hsecrets : app_config.secrets = [s1, s2])
    (hone : (∃ v, env_vars.lookup s1.env_var = some v ∧
        env_vars.lookup s2.env_var = none)
      ∨ (env_vars.lookup s1.env_var = none ∧
          ∃ v, env_vars.lookup s2.env_var = some v)) :
    m.length = 1 ∧ miss.length = 1 := by
  obtain ⟨ac, hac', he, heq⟩ :=
    create_ok_inv config app_name environment env_vars m miss hok
  rw [hac] at hac'
  obtain rfl : app_config = ac := Option.some.inj hac'
  rw [hsecrets] at heq
  rcases hone with ⟨v, h1, h2⟩ | ⟨h1, v, h2⟩
  · have e : mapSecrets app_name environment env_vars [s1, s2] [] [] =
        ([(secretName app_name environment s1.vault_key, v)], [s2.env_var]) := by
      simp [mapSecrets, h1, h2, dictInsert]
    rw [e] at heq
    have hm : m = [(secretName app_name environment s1.vault_key, v)] :=
      congrArg Prod.fst heq
    have hms : miss = [s2.env_var] := congrArg Prod.snd heq
    rw [hm, hms]
    exact ⟨rfl, rfl⟩
  · have e : mapSecrets app_name environment env_vars [s1, s2] [] [] =
        ([(secretName app_name environment s2.vault_key, v)], [s1.env_var]) := by
      simp [mapSecrets, h1, h2, dictInsert]
    rw [e] at heq
    have hm : m = [(secretName app_name environment s2.vault_key, v)] :=
      congrArg Prod.fst heq
    have hms : miss = [s1.env_var] := congrArg Prod.snd heq
    rw [hm, hms]
    exact ⟨rfl, rfl⟩

theorem one_present_one_missing_witness :
    ([("a-dev-k1", "1")] : List (String × String)).length = 1 ∧
      (["Y"] : List String).length = 1 :=
  one_present_one_missing cfgTwo "a" "dev" [("X", "1")] [("a-dev-k1", "1")]
    ["Y"] ⟨["dev"], [⟨"X", "k1"⟩, ⟨"Y", "k2"⟩]⟩ ⟨"X", "k1"⟩ ⟨"Y", "k2"⟩
    rfl rfl rfl (Or.inl ⟨"1", rfl, rfl⟩)

/-- Claim C10: the secret mapping is a dictionary keyed by synthesized name: the
value stored under any name is the value of the last present descriptor
synthesizing it, the number of entries plus the number of missing
variables never exceeds the number of descriptors, and equality holds
exactly when the present descriptors' synthesized names are distinct. -/
theorem dict_overwrite_and_count (config : Config)
    (app_name environment : String) (env_vars m : List (String × String))
    (miss : List String) (app_config : AppConfig) (k : String)
    (hok : create_secret_mapping config app_name environment env_vars =
      .ok (m, miss))
    (hac : config.applications.lookup app_name = some app_config) :
    m.lookup k =
      (matchingValues app_name environment k env_vars app_config.secrets).getLast?
    ∧ m.length + miss.length ≤ app_config.secrets.length
    ∧ (m.length + miss.length = app_config.secrets.length ↔
        (presentNames app_name environment env_vars app_config.secrets).Nodup) := by
  obtain ⟨ac, hac', he, heq⟩ :=
    create_ok_inv config app_name environment env_vars m miss hok
  rw [hac] at hac'
  obtain rfl : app_config = ac := Option.some.inj hac'
  have hm : m =
      (mapSecrets app_name environment env_vars app_config.secrets [] []).1 :=
    congrArg Prod.fst heq
  have hms : miss =
      (mapSecrets app_name environment env_vars app_config.secrets [] []).2 :=
    congrArg Prod.snd heq
  obtain ⟨ih1, ih2⟩ :=
    mapSecrets_count app_name environment env_vars app_config.secrets [] []
  refine ⟨?_, ?_, ?_⟩
  · rw [hm, mapSecrets_lookup]
    cases hgl : (matchingValues app_name environment k env_vars
        app_config.secrets).getLast? with
    | none => rfl
    | some w => rfl
  · rw [hm, hms]
    simpa using ih1
  · rw [hm, hms]
    simp only [List.length_nil, Nat.zero_add] at ih2
    rw [ih2]
    simp [keys]



theorem dict_overwrite_and_count_witness :
    ([("a-dev-k", "2")] : List (String × String)).lookup "a-dev-k" =
      (matchingValues "a" "dev" "a-dev-k" [("X", "1"), ("Y", "2")]
        appDup.secrets).getLast?
    ∧ ([("a-dev-k", "2")] : List (String × String)).length +
        ([] : List String).length ≤ appDup.secrets.length
    ∧ (([("a-dev-k", "2")] : List (String × String)).length +
          ([] : List String).length = appDup.secrets.length ↔
        (presentNames "a" "dev" [("X", "1"), ("Y", "2")] appDup.secrets).Nodup) :=
  dict_overwrite_and_count cfgDup "a" "dev" [("X", "1"), ("Y", "2")]
    [("a-dev-k", "2")] [] appDup "a-dev-k" rfl rfl

/-- Claim C4 as stated is violated when two descriptors share a vault key: the
descriptor `⟨X, k⟩` has its `env_var` present with value `"1"`, yet the
output mapping holds `"2"` (the later descriptor's value) under the
synthesized name, and no entry with value `"1"` exists. -/
theorem present_value_overwritten_counterexample :
    cfgDup.applications.lookup "a" = some appDup
    ∧ (⟨"X", "k"⟩ : SecretConfig) ∈ appDup.secrets
    ∧ List.lookup "X" [("X", "1"), ("Y", "2")] = some "1"
    ∧ create_secret_mapping cfgDup "a" "dev" [("X", "1"), ("Y", "2")] =
        .ok ([("a-dev-k", "2")], [])
    ∧ secretName "a" "dev" "k" = "a-dev-k"
    ∧ ("a-dev-k", "1") ∉ ([("a-dev-k", "2")] : List (String × String))
    ∧ List.lookup "a-dev-k" [("a-dev-k", "2")] ≠ some "1" :=
  ⟨rfl, by decide, rfl, rfl, rfl, by decide, by decide⟩

/-- Claim C4, amended: provided the present descriptors synthesize distinct
names, a present descriptor's value is stored under its synthesized name;
an absent descriptor's `env_var` is recorded in the missing list, which is
exactly the list of absent `env_var`s in order, and every mapping entry
comes from a present descriptor. -/
theorem descriptor_processing (config : Config)
    (app_name environment : String) (env_vars m : List (String × String))
    (miss : List String) (app_config : AppConfig) (sc : SecretConfig)
    (hok : create_secret_mapping config app_name environment env_vars =
      .ok (m, miss))
    (hac : config.applications.lookup app_name = some app_config)
    (hnd : (presentNames app_name environment env_vars app_config.secrets).Nodup)
    (hsc : sc ∈ app_config.secrets) :
    (∀ v, env_vars.lookup sc.env_var = some v →
      m.lookup (secretName app_name environment sc.vault_key) = some v)
    ∧ (env_vars.lookup sc.env_var = none → sc.env_var ∈ miss)
    ∧ miss = missingOf env_vars app_config.secrets
    ∧ (∀ k v', (k, v') ∈ m →
        k ∈ presentNames app_name environment env_vars app_config.secrets) := by
  obtain ⟨ac, hac', he, heq⟩ :=
    create_ok_inv config app_name environment env_vars m miss hok
  rw [hac] at hac'
  obtain rfl : app_config = ac := Option.some.inj hac'
  have hm : m =
      (mapSecrets app_name environment env_vars app_config.secrets [] []).1 :=
    congrArg Prod.fst heq
  have hms : miss =
      (mapSecrets app_name environment env_vars app_config.secrets [] []).2 :=
    congrArg Prod.snd heq
  refine ⟨?_, ?_, ?_, ?_⟩
  · intro v hv
    have hc1 : (presentNames app_name environment env_vars
        app_config.secrets).count (secretName app_name environment sc.vault_key)
        ≤ 1 := List.nodup_iff_count_le_one.mp hnd _
    have hmem : secretName app_name environment sc.vault_key ∈
        presentNames app_name environment env_vars app_config.secrets :=
      mem_presentNames hsc (by simp [hv])
    have hc2 : 0 < (presentNames app_name environment env_vars
        app_config.secrets).count
          (secretName app_name environment sc.vault_key) :=
      List.count_pos_iff.mpr hmem
    have hlen : (matchingValues app_name environment
        (secretName app_name environment sc.vault_key) env_vars
        app_config.secrets).length = 1 := by
      rw [matching_length_count]
      omega
    have hvmem : v ∈ matchingValues app_name environment
        (secretName app_name environment sc.vault_key) env_vars
        app_config.secrets := mem_matchingValues hsc hv rfl
    have hsing := eq_singleton_of_length_one_of_mem hlen hvmem
    rw [hm, mapSecrets_lookup, hsing]
    simp
  · intro hv
    rw [hms, mapSecrets_missing]
    simp only [List.nil_append]
    exact List.mem_map_of_mem _ (List.mem_filter.mpr ⟨hsc, by simp [hv]⟩)
  · rw [hms, mapSecrets_missing]
    simp
  · intro k v' hkv
    have hkeys : k ∈ keys m := List.mem_map_of_mem Prod.fst hkv
    rw [hm] at hkeys
    rcases (mem_keys_mapSecrets app_name environment env_vars k
        app_config.secrets [] []).mp hkeys with h0 | hp
    · simp [keys] at h0
    · exact hp

theorem descriptor_processing_witness :
    List.lookup "a-dev-k1" [("a-dev-k1", "1")] = some "1" ∧
      ("Y" : String) ∈ (["Y"] : List String) := by
  obtain ⟨h1, _, _, _⟩ := descriptor_processing cfgTwo "a" "dev" [("X", "1")]
    [("a-dev-k1", "1")] ["Y"] ⟨["dev"], [⟨"X", "k1"⟩, ⟨"Y", "k2"⟩]⟩
    ⟨"X", "k1"⟩ rfl rfl (by decide) (by decide)
  obtain ⟨_, h2, _, _⟩ := descriptor_processing cfgTwo "a" "dev" [("X", "1")]
    [("a-dev-k1", "1")] ["Y"] ⟨["dev"], [⟨"X", "k1"⟩, ⟨"Y", "k2"⟩]⟩
    ⟨"Y", "k2"⟩ rfl rfl (by decide) (by decide)
  exact ⟨h1 "1" rfl, h2 rfl⟩


end UploadSecretsModel
